import Mathlib

/-!
Verification development for the quantumsim circuit-execution engine
(circuit ordering, waiting-gate synthesis, the sampler protocol and the
measurement protocol).  The engine itself (quantumsim/circuit.py,
quantumsim/sparsedm.py) is not part of the available sources; every
definition below is therefore modelled from the design document, with all
input/output behaviour pinned by the repository's test suite
(quantumsim/test/test_circuit.py, quantumsim/test/test_integration.py).
Probabilities and times are modelled as rationals; the numpy random stream
is modelled as a pure function of the seed.
-/

/-- Outcome triple returned by one sampler invocation:
`(projected, declared, prob)`. -/
structure SamplerOut where
  projected : ℕ
  declared : ℕ
  prob : ℚ
deriving DecidableEq

/-- The four sampler policies of the engine. -/
inductive SamplerPolicy where
  | selection (result : ℕ)
  | uniform
  | uniformNoisy (readout_error : ℚ)
  | biased (readout_error : ℚ) (alpha : ℕ)
deriving DecidableEq

/-- Modelled from the spec: missing `quantumsim.circuit.BiasedSampler`.
The derived flip threshold `p_twiddle`, computed once at construction from
`readout_error` and `alpha`.  The spec gives no closed formula; the tests pin
the value only at `alpha = 1`, where the threshold must equal
`readout_error` (the biased sampler then behaves exactly like the
uniform-noisy one).  We use the symmetric-bias form
`r^alpha / (r^alpha + (1-r)^alpha)`, which satisfies that constraint and lies
strictly between 0 and 1 for `0 < r < 1`. -/
def p_twiddle (readout_error : ℚ) (alpha : ℕ) : ℚ :=
  readout_error ^ alpha / (readout_error ^ alpha + (1 - readout_error) ^ alpha)

/-- Born-rule branch selection from one uniform draw `u` and a pair of
non-negative (not necessarily normalised) weights: outcome `1` exactly when
`u * (p0 + p1) < p1`. -/
def bornPick (u : ℚ) (p : ℚ × ℚ) : ℕ :=
  if u * (p.1 + p.2) < p.2 then 1 else 0

/-- Modelled from the spec: missing `quantumsim.circuit` sampler coroutines
(`selection_sampler`, `uniform_sampler`, `uniform_noisy_sampler`,
`BiasedSampler.send`).  One sampler invocation: the caller supplies the weight
pair, the sampler consumes zero, one or two draws from the random stream
`rng` starting at position `ctr`, and returns the outcome triple together
with the advanced stream position.  The uniform-noisy prob values
(`1 - readout_error` on a faithful classification, `readout_error` on a
flipped one) are pinned by `test_uniform_noisy_sampler` and
`test_noisy_measurement_sampler`. -/
def sampleStep (pol : SamplerPolicy) (rng : ℕ → ℚ) (ctr : ℕ) (p : ℚ × ℚ) :
    SamplerOut × ℕ :=
  match pol with
  | .selection r => (⟨r, r, 1⟩, ctr)
  | .uniform =>
    let proj := bornPick (rng ctr) p
    (⟨proj, proj, 1⟩, ctr + 1)
  | .uniformNoisy r =>
    let proj := bornPick (rng ctr) p
    if rng (ctr + 1) < r then (⟨proj, 1 - proj, r⟩, ctr + 2)
    else (⟨proj, proj, 1 - r⟩, ctr + 2)
  | .biased r a =>
    let proj := bornPick (rng ctr) p
    if rng (ctr + 1) < p_twiddle r a then (⟨proj, 1 - proj, r⟩, ctr + 2)
    else (⟨proj, proj, 1 - r⟩, ctr + 2)

/-- A live sampler: a policy together with its private random stream and the
current position in that stream. -/
structure SamplerInstance where
  policy : SamplerPolicy
  rng : ℕ → ℚ
  ctr : ℕ

/-- One step of the linear-congruential stand-in random generator. -/
def lcgNext (s : ℕ) : ℕ := (1103515245 * s + 12345) % 2147483648

/-- Iterated generator states. -/
def lcgState (seed : ℕ) : ℕ → ℕ
  | 0 => lcgNext seed
  | n + 1 => lcgNext (lcgState seed n)

/-- Modelled from the spec: missing `numpy.random.RandomState(seed)` stream.
The only property the design relies on is that the stream of uniform draws in
`[0, 1)` is a deterministic function of the seed; we use a
linear-congruential generator as the stand-in. -/
def rngStream (seed : Option ℤ) : ℕ → ℚ :=
  fun n => (lcgState (match seed with | none => 0 | some z => z.natAbs) n : ℚ)
    / 2147483648

/-- Construct a sampler of the given policy from a seed. -/
def mkSampler (pol : SamplerPolicy) (seed : Option ℤ) : SamplerInstance :=
  ⟨pol, rngStream seed, 0⟩

/-- `selection_sampler(result)`: always returns the fixed outcome with
probability weight 1. -/
def selection_sampler (result : ℕ) : SamplerInstance :=
  ⟨.selection result, fun _ => 0, 0⟩

/-- `uniform_sampler(seed)`: the noiseless Born-rule policy. -/
def uniform_sampler (seed : Option ℤ) : SamplerInstance :=
  mkSampler .uniform seed

/-- `uniform_noisy_sampler(readout_error, seed)`. -/
def uniform_noisy_sampler (readout_error : ℚ) (seed : Option ℤ) :
    SamplerInstance :=
  mkSampler (.uniformNoisy readout_error) seed

/-- `BiasedSampler(readout_error, alpha, seed)`. -/
def BiasedSampler (readout_error : ℚ) (alpha : ℕ) (seed : Option ℤ) :
    SamplerInstance :=
  mkSampler (.biased readout_error alpha) seed

/-- Send one weight pair to a sampler, getting the outcome triple and the
advanced sampler. -/
def SamplerInstance.send (s : SamplerInstance) (p : ℚ × ℚ) :
    SamplerOut × SamplerInstance :=
  let (o, ctr') := sampleStep s.policy s.rng s.ctr p
  (o, ⟨s.policy, s.rng, ctr'⟩)

/-- Drive a sampler with a sequence of weight pairs, collecting the outcome
triples. -/
def runSampler (s : SamplerInstance) : List (ℚ × ℚ) → List SamplerOut
  | [] => []
  | p :: ps => (s.send p).1 :: runSampler (s.send p).2 ps

/-- Backend primitive calls issued by a measurement gate, in order. -/
inductive BCall where
  | peak (bit : String)
  | project (bit : String) (outcome : ℕ)
  | set_bit (bit : String) (value : ℕ)
deriving DecidableEq

/-- Modelled from the spec: missing `quantumsim.circuit.Measurement` gate
object.  It owns the measured qubit name, its timestamp, the bound sampler,
an optional classical output register name and the accumulating outcome
log. -/
structure Measurement where
  bit : String
  time : ℚ
  sampler : SamplerInstance
  output_bit : Option String
  measurements : List ℕ

/-- Modelled from the spec: missing `Measurement.__init__`.  Passing no
sampler emits an observable warning (returned as the Boolean flag) and binds
the noiseless uniform policy in its place. -/
def mkMeasurement (bit : String) (time : ℚ) (sampler : Option SamplerInstance)
    (output_bit : Option String) : Measurement × Bool :=
  match sampler with
  | none => (⟨bit, time, uniform_sampler none, output_bit, []⟩, true)
  | some s => (⟨bit, time, s, output_bit, []⟩, false)

/-- Modelled from the spec: missing `Measurement.apply_to`.  Given the weight
pair returned by the backend's peek primitive, produce the updated gate and
the ordered list of backend calls: one peek, one projection onto the
sampler's projected outcome, and a classical write of the declared outcome
when an output bit is named; the declared outcome is appended to the gate's
own outcome log. -/
def measApply (m : Measurement) (peek : ℚ × ℚ) : Measurement × List BCall :=
  let (o, s') := m.sampler.send peek
  (⟨m.bit, m.time, s', m.output_bit, m.measurements ++ [o.declared]⟩,
    [BCall.peak m.bit, BCall.project m.bit o.projected] ++
      (match m.output_bit with
        | some b => [BCall.set_bit b o.declared]
        | none => []))

/-- Repeated replays of the same measurement gate against a sequence of peek
results. -/
def measApplyMany (m : Measurement) : List (ℚ × ℚ) → Measurement
  | [] => m
  | p :: ps => measApplyMany (measApply m p).1 ps

/-- Modelled from the spec: missing gate classes of `quantumsim.circuit`
(the variants the claims touch).  Every gate carries its `time` (midpoint of
its action); the amplitude/phase damping gate additionally carries a duration
and the effective decay constants (`⊤` denoting an infinite lifetime). -/
inductive Gate where
  | hadamard (bit : String) (time : ℚ)
  | rotateY (bit : String) (time : ℚ) (angle : ℚ)
  | cphase (bit0 bit1 : String) (time : ℚ)
  | ampPhDamp (bit : String) (time : ℚ) (duration : ℚ) (t1 t2 : WithTop ℚ)
  | measurement (bit : String) (time : ℚ)
  | classicalCNOT (control target : String) (time : ℚ)
deriving DecidableEq

/-- The timestamp of a gate. -/
def Gate.time : Gate → ℚ
  | .hadamard _ t => t
  | .rotateY _ t _ => t
  | .cphase _ _ t => t
  | .ampPhDamp _ t _ _ _ => t
  | .measurement _ t => t
  | .classicalCNOT _ _ t => t

/-- The duration of a gate (zero for instantaneous gates). -/
def Gate.duration : Gate → ℚ
  | .ampPhDamp _ _ d _ _ => d
  | _ => 0

/-- Whether a gate involves the named qubit. -/
def Gate.involves_qubit : Gate → String → Bool
  | .hadamard b _, q => b == q
  | .rotateY b _ _, q => b == q
  | .cphase b0 b1 _, q => b0 == q || b1 == q
  | .ampPhDamp b _ _ _ _, q => b == q
  | .measurement b _, q => b == q
  | .classicalCNOT b0 b1 _, q => b0 == q || b1 == q

/-- Length of the intersection of the intervals `[s, e]` and `[a, b]`. -/
def overlap (s e a b : ℚ) : ℚ := max 0 (min e b - max s a)

/-- Decay-rate mass contributed over the idle interval `[s, e]` by one
override window `(start, end, value)`: the overlap length divided by the
window's time constant. -/
def rateContrib (s e : ℚ) (w : ℚ × ℚ × ℚ) : ℚ := overlap s e w.1 w.2.1 / w.2.2

/-- Modelled from the spec: missing
`quantumsim.circuit.VariableDecoherenceQubit.make_idling_gate` rate
integration.  Total decay-rate mass accumulated over `[s, e]`: the base rate
`1 / base` acts on the whole interval and every override window adds its own
rate on its overlap with the interval (rates add; pinned by
`TestVariableQubits.test_add_gates`, which requires effective `t1 = 5` for a
fully covered interval with `base_t1 = 10` and window value `10`). -/
def decayMass (base : ℚ) (ws : List (ℚ × ℚ × ℚ)) (s e : ℚ) : ℚ :=
  (e - s) / base + (ws.map (rateContrib s e)).sum

/-- Effective time constant over an idle interval: total duration divided by
the accumulated decay-rate mass (the inverse of the duration-weighted average
rate). -/
def effective_t (base : ℚ) (ws : List (ℚ × ℚ × ℚ)) (s e : ℚ) : ℚ :=
  (e - s) / decayMass base ws s e

/-- Instantaneous decay rate at time `t`: base rate plus the rate of every
window containing `t`. -/
def instRate (base : ℚ) (ws : List (ℚ × ℚ × ℚ)) (t : ℚ) : ℚ :=
  1 / base + (ws.map (fun w => if w.1 ≤ t ∧ t < w.2.1 then 1 / w.2.2 else 0)).sum

/-- A definition following the claim's words rather than the code: windows
OVERRIDE the base rate, so the rate is `1 / value` on the overlap with a
window and `1 / base` only on the portion outside every window.  Used to
compare the spec's reading against the engine's additive rule. -/
def overrideMass (base : ℚ) (ws : List (ℚ × ℚ × ℚ)) (s e : ℚ) : ℚ :=
  ((e - s) - (ws.map (fun w => overlap s e w.1 w.2.1)).sum) / base +
    (ws.map (rateContrib s e)).sum

/-- Effective time constant under the override reading of the claim. -/
def effective_t_override (base : ℚ) (ws : List (ℚ × ℚ × ℚ)) (s e : ℚ) : ℚ :=
  (e - s) / overrideMass base ws s e

/-- Modelled from the spec: missing `quantumsim.circuit.Qubit`,
`VariableDecoherenceQubit` and `ClassicalBit` classes. -/
inductive Qubit where
  | classicalBit (name : String)
  | basic (name : String) (t1 t2 : WithTop ℚ)
  | variableDec (name : String) (base_t1 base_t2 : ℚ)
      (t1s t2s : List (ℚ × ℚ × ℚ))
deriving DecidableEq

/-- The unique name of a qubit. -/
def Qubit.name : Qubit → String
  | .classicalBit n => n
  | .basic n _ _ => n
  | .variableDec n _ _ _ _ => n

/-- Energy-relaxation time constant. -/
def Qubit.t1 : Qubit → WithTop ℚ
  | .classicalBit _ => ⊤
  | .basic _ t _ => t
  | .variableDec _ b _ _ _ => (b : WithTop ℚ)

/-- Dephasing time constant. -/
def Qubit.t2 : Qubit → WithTop ℚ
  | .classicalBit _ => ⊤
  | .basic _ _ t => t
  | .variableDec _ _ b _ _ => (b : WithTop ℚ)

/-- A qubit participates in waiting-gate synthesis exactly when it is a
quantum qubit with at least one finite decay constant; classical bits never
do. -/
def Qubit.decoheres : Qubit → Bool
  | .classicalBit _ => false
  | .basic _ t1 t2 => decide (t1 ≠ ⊤) || decide (t2 ≠ ⊤)
  | .variableDec _ _ _ _ _ => true

/-- Modelled from the spec: missing `Qubit.make_idling_gate`.  The damping
gate synthesized for the idle interval `[s, e]`: centered at the midpoint,
with duration `e - s`; a variable-decoherence qubit gets the
duration-weighted effective decay constants. -/
def Qubit.make_idling_gate : Qubit → ℚ → ℚ → Gate
  | .classicalBit n, s, e => .ampPhDamp n ((s + e) / 2) (e - s) ⊤ ⊤
  | .basic n t1 t2, s, e => .ampPhDamp n ((s + e) / 2) (e - s) t1 t2
  | .variableDec n b1 b2 w1 w2, s, e =>
    .ampPhDamp n ((s + e) / 2) (e - s)
      ((effective_t b1 w1 s e : ℚ) : WithTop ℚ)
      ((effective_t b2 w2 s e : ℚ) : WithTop ℚ)

/-- Stable insertion of a gate into a time-ordered list: the new gate goes
after every gate whose time is less than or equal to its own. -/
def insertByTime (g : Gate) : List Gate → List Gate
  | [] => [g]
  | h :: t => if h.time ≤ g.time then h :: insertByTime g t else g :: h :: t

/-- Modelled from the spec: missing `Circuit.order` sorting kernel.  A stable
sort of the gate list by `time` ascending: gates are inserted one by one in
add order, each after all previously added gates of smaller or equal time. -/
def sortByTime (gs : List Gate) : List Gate :=
  gs.foldl (fun acc g => insertByTime g acc) []

/-- Consecutive pairs of a list. -/
def gapsOf : List ℚ → List (ℚ × ℚ)
  | a :: b :: rest => (a, b) :: gapsOf (b :: rest)
  | _ => []

/-- Modelled from the spec: the idle-interval scan of
`Circuit.add_waiting_gates`.  Given the window `[tmin, tmax]` and the
ascending list of times at which gates touch the qubit, the maximal idle
intervals are the positive-length gaps between consecutive gate times,
padded with the window boundaries. -/
def idleIntervals (tmin tmax : ℚ) (times : List ℚ) : List (ℚ × ℚ) :=
  (gapsOf (tmin :: (times ++ [tmax]))).filter fun p => decide (p.1 < p.2)

/-- Declarative characterisation of a maximal idle interval: positive
length, both endpoints are gate times or window boundaries, and no gate time
lies strictly inside. -/
def maxIdle (tmin tmax : ℚ) (times : List ℚ) (s e : ℚ) : Bool :=
  decide (s < e) && (decide (s = tmin) || decide (s ∈ times)) &&
    (decide (e = tmax) || decide (e ∈ times)) &&
    times.all fun t => decide (¬(s < t ∧ t < e))

/-- The ascending list of times of the gates that touch the named qubit
inside the window. -/
def qubitTimes (n : String) (gs : List Gate) (tmin tmax : ℚ) : List ℚ :=
  ((sortByTime gs).filter fun g =>
      g.involves_qubit n && decide (tmin ≤ g.time) && decide (g.time ≤ tmax)
    ).map Gate.time

/-- The waiting gates synthesized for one qubit: one damping gate per
maximal idle interval. -/
def waitingGatesFor (qb : Qubit) (gs : List Gate) (tmin tmax : ℚ) :
    List Gate :=
  (idleIntervals tmin tmax (qubitTimes qb.name gs tmin tmax)).map fun p =>
    qb.make_idling_gate p.1 p.2

/-- Modelled from the spec: missing `quantumsim.circuit.Circuit` container:
a list of qubits and a list of gates, both in add order until `order` is
called. -/
structure Circuit where
  qubits : List Qubit
  gates : List Gate

/-- `Circuit.add_qubit` with an explicit qubit object. -/
def Circuit.add_qubit (c : Circuit) (qb : Qubit) : Circuit :=
  ⟨c.qubits ++ [qb], c.gates⟩

/-- A qubit created from a name alone, with no decoherence parameters. -/
def mkQubitDefault (name : String) : Qubit := .basic name ⊤ ⊤

/-- `Circuit.add_gate`. -/
def Circuit.add_gate (c : Circuit) (g : Gate) : Circuit :=
  ⟨c.qubits, c.gates ++ [g]⟩

/-- Modelled from the spec: missing `Circuit.order`: stable sort of the gate
sequence by time ascending. -/
def Circuit.order (c : Circuit) : Circuit :=
  ⟨c.qubits, sortByTime c.gates⟩

/-- Modelled from the spec: missing `Circuit.add_waiting_gates`.  When the
circuit has gates or a full window is supplied, resolve the window (its
boundaries default to the first and last gate time), select the qubits that
decohere (restricted by the optional allow-list), and append one damping
gate per maximal idle interval of each selected qubit. -/
def Circuit.add_waiting_gates (c : Circuit) (only_qubits : Option (List String))
    (tmin tmax : Option ℚ) : Circuit :=
  if c.gates.isEmpty && (tmin.isNone || tmax.isNone) then c
  else
    let sorted := sortByTime c.gates
    let tmin' := tmin.getD ((sorted.map Gate.time).headD 0)
    let tmax' := tmax.getD ((sorted.map Gate.time).getLastD 0)
    let todo := c.qubits.filter fun qb =>
      qb.decoheres && (match only_qubits with
        | none => true
        | some l => decide (qb.name ∈ l))
    ⟨c.qubits,
      c.gates ++ todo.flatMap fun qb => waitingGatesFor qb c.gates tmin' tmax'⟩

/-- Bloch/Pauli components of a single-qubit state with unit trace. -/
structure Pauli3 where
  x : ℚ
  y : ℚ
  z : ℚ
deriving DecidableEq

/-- Modelled from the spec: the slice of the missing
`quantumsim.sparsedm.SparseDM` state backend exercised by the three-qubit
end-to-end scenario, where the five qubits stay in a product state
throughout.  It holds one Pauli vector per qubit, the accumulated trace, the
position in the random stream, and the outcome logs of the two measurement
gates (on `A1` and on `A2`). -/
structure SimState where
  d1 : Pauli3
  a1 : Pauli3
  d2 : Pauli3
  a2 : Pauli3
  d3 : Pauli3
  tr : ℚ
  ctr : ℕ
  log1 : List ℕ
  log2 : List ℕ
deriving DecidableEq

/-- Read the Pauli vector of a named qubit. -/
def SimState.getQ (st : SimState) : String → Option Pauli3
  | "D1" => some st.d1
  | "A1" => some st.a1
  | "D2" => some st.d2
  | "A2" => some st.a2
  | "D3" => some st.d3
  | _ => none

/-- Replace the Pauli vector of a named qubit. -/
def SimState.setQ (st : SimState) (n : String) (v : Pauli3) : Option SimState :=
  match n with
  | "D1" => some { st with d1 := v }
  | "A1" => some { st with a1 := v }
  | "D2" => some { st with d2 := v }
  | "A2" => some { st with a2 := v }
  | "D3" => some { st with d3 := v }
  | _ => none

/-- Hadamard conjugation on Pauli components: `x ↔ z`, `y ↦ -y`. -/
def hadamardP (v : Pauli3) : Pauli3 := ⟨v.z, -v.y, v.x⟩

/-- Pauli-Z conjugation: `x, y` negated. -/
def zP (v : Pauli3) : Pauli3 := ⟨-v.x, -v.y, v.z⟩

/-- Phase damping with factor `lam` (standing for `exp(-duration/t2)`; the
near-infinite-lifetime idealisation of the scenario is `lam = 1`). -/
def dampP (lam : ℚ) (v : Pauli3) : Pauli3 := ⟨lam * v.x, lam * v.y, v.z⟩

/-- Modelled from the spec: missing `Circuit.apply_to` dispatch together
with the backend primitives, specialised to product states.  A
controlled-phase gate whose partner is in a computational basis state acts
as a conditional Pauli-Z (this scenario never entangles); a measurement
peeks the two projective weights, feeds them through the noiseless uniform
sampler, collapses the qubit onto the projected branch, scales the trace by
the picked weight and appends the declared outcome to the gate's log. -/
def applyGateP (lam : ℚ) (rng : ℕ → ℚ) (g : Gate) (st : SimState) :
    Option SimState :=
  match g with
  | .hadamard b _ => (st.getQ b).bind fun v => st.setQ b (hadamardP v)
  | .ampPhDamp b _ _ _ _ => (st.getQ b).bind fun v => st.setQ b (dampP lam v)
  | .cphase b0 b1 _ =>
    (st.getQ b0).bind fun v0 => (st.getQ b1).bind fun v1 =>
      if v1.z = 1 then some st
      else if v1.z = -1 then st.setQ b0 (zP v0)
      else if v0.z = 1 then some st
      else if v0.z = -1 then st.setQ b1 (zP v1)
      else none
  | .measurement b _ =>
    (st.getQ b).bind fun v =>
      let w0 := st.tr * ((1 + v.z) / 2)
      let w1 := st.tr * ((1 - v.z) / 2)
      let r := sampleStep .uniform rng st.ctr (w0, w1)
      (st.setQ b ⟨0, 0, 1 - 2 * (r.1.projected : ℚ)⟩).map fun st' =>
        { st' with
          tr := if r.1.projected = 1 then w1 else w0
          ctr := r.2
          log1 := if b = "A1" then st.log1 ++ [r.1.declared] else st.log1
          log2 := if b = "A2" then st.log2 ++ [r.1.declared] else st.log2 }
  | _ => none

/-- Apply an ordered gate list once, left to right. -/
def runGatesP (lam : ℚ) (rng : ℕ → ℚ) : List Gate → SimState → Option SimState
  | [], st => some st
  | g :: gs, st => (applyGateP lam rng g st).bind (runGatesP lam rng gs)

/-- Replay the same ordered gate list `n` times against the evolving state. -/
def runReplaysP (lam : ℚ) (rng : ℕ → ℚ) (gs : List Gate) :
    ℕ → SimState → Option SimState
  | 0, st => some st
  | n + 1, st => (runGatesP lam rng gs st).bind (runReplaysP lam rng gs n)

/-- The three-qubit end-to-end circuit of `test_three_qbit_clean`, as added:
five qubits with near-infinite lifetimes, two Hadamarded ancillas entangled
with the data qubits by two controlled-phase gates each, then measured with
the (fallback) noiseless sampler. -/
def c2Base : Circuit :=
  { qubits := ["D1", "A1", "D2", "A2", "D3"].map fun n =>
      .basic n ⊤ ((10000000000 : ℚ) : WithTop ℚ),
    gates := [ .hadamard "A1" 0, .hadamard "A2" 0,
               .cphase "A1" "D1" 200, .cphase "A2" "D2" 200,
               .cphase "A1" "D2" 100, .cphase "A2" "D3" 100,
               .hadamard "A1" 300, .hadamard "A2" 300,
               .measurement "A1" 350, .measurement "A2" 350 ] }

/-- The scenario circuit after waiting-gate synthesis over `[0, 1500]` and
ordering. -/
def c2Circuit : Circuit := (c2Base.add_waiting_gates none (some 0) (some 1500)).order

/-- Initial backend state of the scenario: classical bits
`{D1: 1, A1: 1, D2: 1, A2: 1, D3: 0}` as Pauli vectors, unit trace, empty
logs. -/
def c2Init : SimState :=
  ⟨⟨0, 0, -1⟩, ⟨0, 0, -1⟩, ⟨0, 0, -1⟩, ⟨0, 0, -1⟩, ⟨0, 0, 1⟩, 1, 0, [], []⟩

/-- The state reached after `k` replays: the data qubits and `A1` are back
in their initial basis states, `A2` alternates between its two basis states,
the trace stays 1, two draws are consumed per replay, the first
measurement's log is all ones and the second one's alternates. -/
def c2After (k : ℕ) : SimState :=
  ⟨⟨0, 0, -1⟩, ⟨0, 0, -1⟩, ⟨0, 0, -1⟩,
    ⟨0, 0, if k % 2 = 0 then -1 else 1⟩, ⟨0, 0, 1⟩, 1, 2 * k,
    List.replicate k 1, (List.range k).map (· % 2)⟩

/-- Gate list sorted by time ascending. -/
def TimeSorted (l : List Gate) : Prop :=
  l.Pairwise fun a b => a.time ≤ b.time

theorem insertByTime_perm (g : Gate) (l : List Gate) :
    List.Perm (insertByTime g l) (g :: l) := by
  induction l with
  | nil => simp [insertByTime]
  | cons h t ih =>
    by_cases hle : h.time ≤ g.time
    · simpa [insertByTime, hle] using (ih.cons h).trans (List.Perm.swap g h t)
    · simp [insertByTime, hle]

theorem sortByTime_permAux (gs : List Gate) :
    ∀ acc, List.Perm (gs.foldl (fun a g => insertByTime g a) acc) (acc ++ gs) := by
  induction gs with
  | nil => intro acc; simp
  | cons g t ih =>
    intro acc
    have h1 : (g :: t).foldl (fun a g => insertByTime g a) acc
        = t.foldl (fun a g => insertByTime g a) (insertByTime g acc) := by
      simp [List.foldl_cons]
    have h2 := ih (insertByTime g acc)
    have h3 : List.Perm (insertByTime g acc ++ t) ((g :: acc) ++ t) :=
      (insertByTime_perm g acc).append_right t
    have h4 : List.Perm ((g :: acc) ++ t) (acc ++ g :: t) := List.perm_middle.symm
    rw [h1]
    exact (h2.trans h3).trans h4

theorem sortByTime_perm (gs : List Gate) : List.Perm (sortByTime gs) gs := by
  simpa [sortByTime] using sortByTime_permAux gs []

theorem insertByTime_mem {g x : Gate} {l : List Gate} :
    x ∈ insertByTime g l ↔ x = g ∨ x ∈ l := by
  rw [(insertByTime_perm g l).mem_iff]; simp

theorem insertByTime_sorted {g : Gate} {l : List Gate} (h : TimeSorted l) :
    TimeSorted (insertByTime g l) := by
  induction l with
  | nil => simp [insertByTime, TimeSorted]
  | cons a t ih =>
    rcases (List.pairwise_cons.mp h) with ⟨ha, ht⟩
    by_cases hle : a.time ≤ g.time
    · rw [insertByTime, if_pos hle]
      refine List.pairwise_cons.mpr ⟨?_, ih ht⟩
      intro x hx
      rcases insertByTime_mem.mp hx with rfl | hx
      · exact hle
      · exact ha x hx
    · rw [insertByTime, if_neg hle]
      push_neg at hle
      refine List.pairwise_cons.mpr ⟨?_, h⟩
      intro x hx
      rcases List.mem_cons.mp hx with rfl | hx
      · exact le_of_lt hle
      · exact le_trans (le_of_lt hle) (ha x hx)

theorem sortByTime_sortedAux (gs : List Gate) :
    ∀ acc, TimeSorted acc →
      TimeSorted (gs.foldl (fun a g => insertByTime g a) acc) := by
  induction gs with
  | nil => intro acc h; simpa
  | cons g t ih =>
    intro acc h
    simpa [List.foldl_cons] using ih _ (insertByTime_sorted h)

theorem sortByTime_sorted (gs : List Gate) : TimeSorted (sortByTime gs) :=
  sortByTime_sortedAux gs [] (List.Pairwise.nil)

theorem insertByTime_of_le {g : Gate} {l : List Gate}
    (h : ∀ x ∈ l, x.time ≤ g.time) : insertByTime g l = l ++ [g] := by
  induction l with
  | nil => simp [insertByTime]
  | cons a t ih =>
    rw [insertByTime, if_pos (h a (List.mem_cons_self a t))]
    simp [ih fun x hx => h x (List.mem_cons_of_mem a hx)]

theorem sortByTime_of_sortedAux (gs : List Gate) :
    ∀ acc, TimeSorted (acc ++ gs) →
      gs.foldl (fun a g => insertByTime g a) acc = acc ++ gs := by
  induction gs with
  | nil => intro acc _; simp
  | cons g t ih =>
    intro acc h
    have hle : ∀ x ∈ acc, x.time ≤ g.time := by
      intro x hx
      exact (List.pairwise_append.mp h).2.2 x hx g (List.mem_cons_self g t)
    have h' : TimeSorted ((acc ++ [g]) ++ t) := by
      simpa [List.append_assoc] using h
    calc (g :: t).foldl (fun a g => insertByTime g a) acc
        = t.foldl (fun a g => insertByTime g a) (acc ++ [g]) := by
          simp [List.foldl_cons, insertByTime_of_le hle]
      _ = (acc ++ [g]) ++ t := ih _ h'
      _ = acc ++ g :: t := by simp

theorem sortByTime_of_sorted {gs : List Gate} (h : TimeSorted gs) :
    sortByTime gs = gs := by
  simpa [sortByTime] using sortByTime_of_sortedAux gs [] (by simpa)

theorem sortByTime_idem (gs : List Gate) :
    sortByTime (sortByTime gs) = sortByTime gs :=
  sortByTime_of_sorted (sortByTime_sorted gs)

theorem filter_ne_insertByTime (g : Gate) (l : List Gate) (t0 : ℚ)
    (hg : g.time ≠ t0) :
    (insertByTime g l).filter (fun x => decide (x.time = t0)) =
      l.filter (fun x => decide (x.time = t0)) := by
  induction l with
  | nil => simp [insertByTime, hg]
  | cons a tl ih =>
    by_cases hle : a.time ≤ g.time
    · rw [insertByTime, if_pos hle]
      simp only [List.filter_cons, ih]
    · rw [insertByTime, if_neg hle]
      simp [List.filter_cons, hg]

theorem filter_eq_nil_of_lt {l : List Gate} {t0 : ℚ}
    (hall : ∀ x ∈ l, t0 < x.time) :
    l.filter (fun x => decide (x.time = t0)) = [] := by
  refine List.filter_eq_nil_iff.mpr ?_
  intro x hx
  simpa using (hall x hx).ne'

theorem filter_eq_insertByTime (g : Gate) (l : List Gate) (t0 : ℚ)
    (hg : g.time = t0) (hs : TimeSorted l) :
    (insertByTime g l).filter (fun x => decide (x.time = t0)) =
      l.filter (fun x => decide (x.time = t0)) ++ [g] := by
  induction l with
  | nil => simp [insertByTime, hg]
  | cons a tl ih =>
    rcases List.pairwise_cons.mp hs with ⟨ha, htl⟩
    by_cases hle : a.time ≤ g.time
    · rw [insertByTime, if_pos hle]
      simp only [List.filter_cons, ih htl]
      by_cases hat : a.time = t0 <;> simp [hat]
    · rw [insertByTime, if_neg hle]
      push_neg at hle
      have hnil : (a :: tl).filter (fun x => decide (x.time = t0)) = [] := by
        refine filter_eq_nil_of_lt ?_
        intro x hx
        rcases List.mem_cons.mp hx with rfl | hx
        · exact hg ▸ hle
        · exact lt_of_lt_of_le (hg ▸ hle) (ha x hx)
      simp [List.filter_cons, hnil, hg]

theorem sortByTime_filterAux (gs : List Gate) (t0 : ℚ) :
    ∀ acc, TimeSorted acc →
      (gs.foldl (fun a g => insertByTime g a) acc).filter
          (fun x => decide (x.time = t0)) =
        acc.filter (fun x => decide (x.time = t0)) ++
          gs.filter (fun x => decide (x.time = t0)) := by
  induction gs with
  | nil => intro acc _; simp
  | cons g tl ih =>
    intro acc hacc
    rw [List.foldl_cons]
    rw [ih (insertByTime g acc) (insertByTime_sorted hacc)]
    by_cases hg : g.time = t0
    · rw [filter_eq_insertByTime g acc t0 hg hacc]
      simp [List.filter_cons, hg]
    · rw [filter_ne_insertByTime g acc t0 hg]
      simp [List.filter_cons, hg]

theorem sortByTime_filter (gs : List Gate) (t0 : ℚ) :
    (sortByTime gs).filter (fun x => decide (x.time = t0)) =
      gs.filter (fun x => decide (x.time = t0)) := by
  simpa [sortByTime] using sortByTime_filterAux gs t0 [] List.Pairwise.nil

/-- C6: `order()` sorts the circuit's gate sequence stably by time
ascending: it permutes the gate list (nothing added or removed), the result
is sorted by time, gates sharing a timestamp keep their relative add-order
(the filtered subsequence at every fixed time is unchanged), and ordering is
idempotent. -/
theorem spec_c6_order_stable_sort (c : Circuit) :
    List.Perm c.order.gates c.gates
  ∧ TimeSorted c.order.gates
  ∧ (∀ t0 : ℚ, c.order.gates.filter (fun g => decide (g.time = t0)) =
      c.gates.filter (fun g => decide (g.time = t0)))
  ∧ c.order.order = c.order := by
  refine ⟨sortByTime_perm c.gates, sortByTime_sorted c.gates,
    fun t0 => sortByTime_filter c.gates t0, ?_⟩
  show Circuit.mk c.qubits (sortByTime (sortByTime c.gates)) =
    Circuit.mk c.qubits (sortByTime c.gates)
  rw [sortByTime_idem]

/-- C1 (amended): for the uniform-noisy sampler the returned `prob` is
`1 - readout_error` when the declared outcome matches the projected one and
`readout_error` when it was flipped; it depends only on the flip draw, never
on which Born branch was selected. -/
theorem spec_c1_uniform_noisy_prob (r : ℚ) (rng : ℕ → ℚ) (ctr : ℕ)
    (p : ℚ × ℚ) :
    ((sampleStep (.uniformNoisy r) rng ctr p).1.prob =
      if (sampleStep (.uniformNoisy r) rng ctr p).1.declared =
          (sampleStep (.uniformNoisy r) rng ctr p).1.projected
      then 1 - r else r)
  ∧ (sampleStep (.uniformNoisy r) rng ctr p).1.prob =
      (if rng (ctr + 1) < r then r else 1 - r) := by
  unfold sampleStep bornPick
  by_cases hf : rng (ctr + 1) < r <;>
    by_cases hb : rng ctr * (p.1 + p.2) < p.2 <;>
      simp [hf, hb]

/-- C1 (counterexample): driven at readout error `7/10` with draw `1/2`, the
sampler flips the declared outcome and returns `prob = 7/10`, which differs
from `1 - readout_error = 3/10`; so `prob` is not fixed at
`1 - readout_error` independently of the flip.  (These are exactly the
values asserted by `test_uniform_noisy_sampler`.) -/
theorem spec_c1_counterexample :
    sampleStep (.uniformNoisy (7/10)) (fun _ => 1/2) 0 (1/5, 4/5) =
      (⟨1, 0, 7/10⟩, 2)
  ∧ ((7 : ℚ)/10) ≠ 1 - 7/10 := by
  refine ⟨?_, by norm_num⟩
  norm_num [sampleStep, bornPick]

/-- C4: applying a measurement gate peeks the measured qubit once, feeds the
weight pair to the bound sampler, projects once onto the sampler's projected
outcome, writes the declared outcome to the named output bit when present,
and appends the declared outcome to the gate's own log; over arbitrarily
many replays the log only grows, accumulating every declared outcome in
order, and is never reset. -/
theorem spec_c4_measurement_protocol (m : Measurement) (p : ℚ × ℚ)
    (ps : List (ℚ × ℚ)) :
    (measApply m p).2 =
      [BCall.peak m.bit, BCall.project m.bit ((m.sampler.send p).1.projected)]
        ++ (match m.output_bit with
            | some b => [BCall.set_bit b ((m.sampler.send p).1.declared)]
            | none => [])
  ∧ (measApply m p).1.measurements =
      m.measurements ++ [(m.sampler.send p).1.declared]
  ∧ (measApplyMany m ps).measurements =
      m.measurements ++ (runSampler m.sampler ps).map (fun o => o.declared) := by
  refine ⟨rfl, rfl, ?_⟩
  induction ps generalizing m with
  | nil => simp [measApplyMany, runSampler]
  | cons q qs ih =>
    show (measApplyMany (measApply m q).1 qs).measurements = _
    rw [ih]
    have hs : (measApply m q).1.sampler = (m.sampler.send q).2 := rfl
    have hm : (measApply m q).1.measurements =
        m.measurements ++ [(m.sampler.send q).1.declared] := rfl
    rw [hs, hm, runSampler]
    simp

/-- C7: two sampler instances of the same policy constructed from the same
integer seed, driven with the same input sequence, produce identical output
sequences of `(projected, declared, prob)` triples. -/
theorem spec_c7_seed_determinism (pol : SamplerPolicy) (seed : ℤ)
    (s1 s2 : SamplerInstance) (ins : List (ℚ × ℚ))
    (h1 : s1 = mkSampler pol (some seed)) (h2 : s2 = mkSampler pol (some seed)) :
    runSampler s1 ins = runSampler s2 ins := by
  rw [h1, h2]

/-- C7 (witness): two uniform-noisy samplers seeded with 42 agree on a
concrete drive sequence, and that run evaluates to the concrete outcome
list. -/
theorem spec_c7_witness :
    runSampler (mkSampler (.uniformNoisy (1/10)) (some 42)) [(1/2, 1/2), (9/10, 1/10)] =
      runSampler (mkSampler (.uniformNoisy (1/10)) (some 42)) [(1/2, 1/2), (9/10, 1/10)]
  ∧ runSampler (mkSampler (.uniformNoisy (1/10)) (some 42)) [(1/2, 1/2), (9/10, 1/10)] =
      [⟨0, 0, 9/10⟩, ⟨0, 0, 9/10⟩] :=
  ⟨spec_c7_seed_determinism (.uniformNoisy (1/10)) 42 _ _ _ rfl rfl, by
    norm_num [runSampler, SamplerInstance.send, sampleStep, bornPick, mkSampler,
      rngStream, lcgState, lcgNext]⟩

/-- C8: constructing a measurement without a sampler warns (flag `true`) and
binds the noiseless uniform policy — never a biased or noisy one — so a
subsequent application projects onto the Born-rule-drawn outcome with
`prob = 1` and declares exactly what it projected. -/
theorem spec_c8_missing_sampler_fallback (bit : String) (time : ℚ)
    (obit : Option String) (rng : ℕ → ℚ) (ctr : ℕ) (p : ℚ × ℚ) :
    (mkMeasurement bit time none obit).2 = true
  ∧ (mkMeasurement bit time none obit).1.sampler = uniform_sampler none
  ∧ (mkMeasurement bit time none obit).1.sampler.policy = SamplerPolicy.uniform
  ∧ ((mkMeasurement bit time none obit).1.sampler.send p).1 =
      ⟨bornPick (rngStream none 0) p, bornPick (rngStream none 0) p, 1⟩
  ∧ (sampleStep SamplerPolicy.uniform rng ctr p).1 =
      ⟨bornPick (rng ctr) p, bornPick (rng ctr) p, 1⟩ :=
  ⟨rfl, rfl, rfl, rfl, rfl⟩

theorem p_twiddle_one (r : ℚ) : p_twiddle r 1 = r := by
  unfold p_twiddle
  rw [pow_one, pow_one, show r + (1 - r) = 1 by ring, div_one]

theorem sampleStep_biased_one (r : ℚ) (rng : ℕ → ℚ) (ctr : ℕ) (p : ℚ × ℚ) :
    sampleStep (.biased r 1) rng ctr p = sampleStep (.uniformNoisy r) rng ctr p := by
  simp only [sampleStep, p_twiddle_one]

theorem runSampler_biased_one (r : ℚ) (rng : ℕ → ℚ) (ins : List (ℚ × ℚ)) :
    ∀ ctr, runSampler ⟨.biased r 1, rng, ctr⟩ ins =
      runSampler ⟨.uniformNoisy r, rng, ctr⟩ ins := by
  induction ins with
  | nil => intro ctr; rfl
  | cons q qs ih =>
    intro ctr
    show (SamplerInstance.send _ q).1 :: _ = (SamplerInstance.send _ q).1 :: _
    simp only [SamplerInstance.send, sampleStep_biased_one]
    exact congrArg _ (ih _)

/-- C9: a biased sampler with `alpha = 1` is extensionally identical to the
uniform-noisy sampler with the same readout error and seed, and its derived
threshold `p_twiddle` lies strictly between 0 and 1. -/
theorem spec_c9_biased_alpha_one (r : ℚ) (seed : Option ℤ)
    (ins : List (ℚ × ℚ)) (h0 : 0 < r) (h1 : r < 1) :
    runSampler (BiasedSampler r 1 seed) ins =
      runSampler (uniform_noisy_sampler r seed) ins
  ∧ 0 < p_twiddle r 1 ∧ p_twiddle r 1 < 1 := by
  refine ⟨?_, ?_, ?_⟩
  · exact runSampler_biased_one r (rngStream seed) ins 0
  · rw [p_twiddle_one]; exact h0
  · rw [p_twiddle_one]; exact h1

/-- C9 (witness): at readout error `2, 5`, seed 7 and a concrete drive
sequence, the hypotheses hold and the two samplers agree; the shared run
evaluates to a flipped outcome with `prob = 2/5`. -/
theorem spec_c9_witness :
    (0 < (2 : ℚ)/5 ∧ (2 : ℚ)/5 < 1)
  ∧ (runSampler (BiasedSampler (2/5) 1 (some 7)) [(1/5, 4/5)] =
        runSampler (uniform_noisy_sampler (2/5) (some 7)) [(1/5, 4/5)]
      ∧ 0 < p_twiddle (2/5) 1 ∧ p_twiddle (2/5) 1 < 1)
  ∧ runSampler (BiasedSampler (2/5) 1 (some 7)) [(1/5, 4/5)] =
      [⟨1, 0, 2/5⟩] := by
  refine ⟨⟨by norm_num, by norm_num⟩,
    spec_c9_biased_alpha_one (2/5) (some 7) [(1/5, 4/5)] (by norm_num) (by norm_num), ?_⟩
  norm_num [runSampler, SamplerInstance.send, sampleStep, bornPick, mkSampler,
    BiasedSampler, p_twiddle_one, rngStream, lcgState, lcgNext]

theorem overlap_split (s m e a b : ℚ) (h1 : s ≤ m) (h2 : m ≤ e) :
    overlap s e a b = overlap s m a b + overlap m e a b := by
  unfold overlap
  rcases le_total b m with hb | hb
  · rw [min_eq_right (hb.trans h2), min_eq_right hb]
    have hz : b - max m a ≤ 0 := by
      have := le_max_left m a; linarith
    rw [max_eq_left hz, add_zero]
  · rcases le_total m a with ha | ha
    · rw [max_eq_right (h1.trans ha), max_eq_right ha]
      have hz : min m b - a ≤ 0 := by
        have := min_le_left m b
        linarith
      rw [max_eq_left hz, zero_add]
    · rw [min_eq_left hb, max_eq_left ha]
      have hsa : max s a ≤ m := max_le h1 ha
      have hmb : m ≤ min e b := le_min h2 hb
      have hv1 : 0 ≤ m - max s a := by linarith
      have hv2 : 0 ≤ min e b - m := by linarith
      rw [max_eq_right hv1, max_eq_right hv2,
        max_eq_right (by linarith : 0 ≤ min e b - max s a)]
      ring

theorem rateContrib_split (s m e : ℚ) (w : ℚ × ℚ × ℚ) (h1 : s ≤ m) (h2 : m ≤ e) :
    rateContrib s e w = rateContrib s m w + rateContrib m e w := by
  unfold rateContrib
  rw [overlap_split s m e w.1 w.2.1 h1 h2, add_div]

theorem decayMass_split (base : ℚ) (ws : List (ℚ × ℚ × ℚ)) (s m e : ℚ)
    (h1 : s ≤ m) (h2 : m ≤ e) :
    decayMass base ws s e = decayMass base ws s m + decayMass base ws m e := by
  unfold decayMass
  have hsum : (ws.map (rateContrib s e)).sum =
      (ws.map (rateContrib s m)).sum + (ws.map (rateContrib m e)).sum := by
    induction ws with
    | nil => simp
    | cons w t ih =>
      simp only [List.map_cons, List.sum_cons, ih,
        rateContrib_split s m e w h1 h2]
      ring
  rw [hsum]
  ring

theorem rateContrib_const (s e : ℚ) (w : ℚ × ℚ × ℚ) (hse : s < e)
    (hfree : ¬(s < w.1 ∧ w.1 < e) ∧ ¬(s < w.2.1 ∧ w.2.1 < e)) :
    rateContrib s e w = (e - s) * (if w.1 ≤ s ∧ s < w.2.1 then 1 / w.2.2 else 0) := by
  obtain ⟨hfa, hfb⟩ := hfree
  unfold rateContrib overlap
  by_cases hin : w.1 ≤ s ∧ s < w.2.1
  · obtain ⟨ha, hb⟩ := hin
    have heb : e ≤ w.2.1 := by
      by_contra hc
      exact hfb ⟨hb, lt_of_not_le hc⟩
    rw [if_pos ⟨ha, hb⟩, min_eq_left heb, max_eq_left ha,
      max_eq_right (by linarith : (0:ℚ) ≤ e - s), div_eq_mul_inv, one_div]
  · rw [if_neg hin]
    push_neg at hin
    rcases le_or_lt w.1 s with ha | ha
    · have hbs : w.2.1 ≤ s := hin ha
      have hz : min e w.2.1 - max s w.1 ≤ 0 := by
        have := min_le_right e w.2.1
        have := le_max_left s w.1
        linarith
      rw [max_eq_left hz, zero_div, mul_zero]
    · have hea : e ≤ w.1 := by
        by_contra hc
        exact hfa ⟨ha, lt_of_not_le hc⟩
      have hz : min e w.2.1 - max s w.1 ≤ 0 := by
        have := min_le_left e w.2.1
        have := le_max_right s w.1
        linarith
      rw [max_eq_left hz, zero_div, mul_zero]

theorem decayMass_const (base : ℚ) (ws : List (ℚ × ℚ × ℚ)) (s e : ℚ)
    (hse : s < e)
    (hfree : ∀ w ∈ ws, ¬(s < w.1 ∧ w.1 < e) ∧ ¬(s < w.2.1 ∧ w.2.1 < e)) :
    decayMass base ws s e = (e - s) * instRate base ws s := by
  unfold decayMass instRate
  have hsum : (ws.map (rateContrib s e)).sum =
      (e - s) * (ws.map fun w => if w.1 ≤ s ∧ s < w.2.1 then 1 / w.2.2 else 0).sum := by
    induction ws with
    | nil => simp
    | cons w t ih =>
      simp only [List.map_cons, List.sum_cons,
        ih fun x hx => hfree x (List.mem_cons_of_mem w hx),
        rateContrib_const s e w hse (hfree w (List.mem_cons_self w t))]
      ring
  rw [hsum]
  ring

/-- C3 (amended): a time-window adds the rate `1 / value` on top of the base
rate inside the window (it does not override the base rate), and the
effective time constant for a waiting interval is the inverse of the
duration-weighted average of that instantaneous rate: the decay-rate mass is
additive over a split of the interval, equals duration times the
instantaneous rate on boundary-free pieces, and is inverted back into
`effective_t`; on the interval `[0, 100]` of the test the result `100/11`
differs from the linear average `19/2` of the T values. -/
theorem spec_c3_rate_averaging (base : ℚ) (ws : List (ℚ × ℚ × ℚ)) (s m e : ℚ)
    (h1 : s ≤ m) (h2 : m ≤ e) (h3 : s < e)
    (hfree : ∀ w ∈ ws, ¬(s < w.1 ∧ w.1 < e) ∧ ¬(s < w.2.1 ∧ w.2.1 < e)) :
    effective_t base ws s e = (e - s) / decayMass base ws s e
  ∧ decayMass base ws s e = decayMass base ws s m + decayMass base ws m e
  ∧ decayMass base ws s e = (e - s) * instRate base ws s
  ∧ effective_t 10 [(10, 20, 10)] 0 100 = 100/11
  ∧ ((90 * 10 + 10 * 5) / 100 : ℚ) = 19/2
  ∧ ((100 : ℚ)/11) ≠ 19/2 := by
  refine ⟨rfl, decayMass_split base ws s m e h1 h2,
    decayMass_const base ws s e h3 hfree, ?_, by norm_num, by norm_num⟩
  norm_num [effective_t, decayMass, rateContrib, overlap, min_def, max_def]

/-- C3 (counterexample): on an interval fully inside the override window of
`TestVariableQubits.test_add_gates` (base 10, window value 10) the engine
produces the effective constant 5 — the rates add — whereas the claim's
override reading predicts 10. -/
theorem spec_c3_counterexample :
    effective_t 10 [(10, 20, 10)] 10 20 = 5
  ∧ effective_t_override 10 [(10, 20, 10)] 10 20 = 10
  ∧ (5 : ℚ) ≠ 10 := by
  norm_num [effective_t, effective_t_override, decayMass, overrideMass,
    rateContrib, overlap, min_def, max_def]

/-- C3 (witness): the rate-averaging theorem instantiated on the concrete
boundary-free interval `[0, 5]` split at `2`. -/
theorem spec_c3_witness :
    ((0 : ℚ) ≤ 2 ∧ (2 : ℚ) ≤ 5 ∧ (0 : ℚ) < 5
      ∧ (∀ w ∈ [((10 : ℚ), (20 : ℚ), (10 : ℚ))],
          ¬((0 : ℚ) < w.1 ∧ w.1 < 5) ∧ ¬((0 : ℚ) < w.2.1 ∧ w.2.1 < 5)))
  ∧ (effective_t 10 [(10, 20, 10)] 0 5 =
        (5 - 0) / decayMass 10 [(10, 20, 10)] 0 5
      ∧ decayMass 10 [(10, 20, 10)] 0 5 =
          decayMass 10 [(10, 20, 10)] 0 2 + decayMass 10 [(10, 20, 10)] 2 5
      ∧ decayMass 10 [(10, 20, 10)] 0 5 =
          (5 - 0) * instRate 10 [(10, 20, 10)] 0
      ∧ effective_t 10 [(10, 20, 10)] 0 100 = 100/11
      ∧ ((90 * 10 + 10 * 5) / 100 : ℚ) = 19/2
      ∧ ((100 : ℚ)/11) ≠ 19/2) := by
  have hfree : ∀ w ∈ [((10 : ℚ), (20 : ℚ), (10 : ℚ))],
      ¬((0 : ℚ) < w.1 ∧ w.1 < 5) ∧ ¬((0 : ℚ) < w.2.1 ∧ w.2.1 < 5) := by
    intro w hw
    rw [List.mem_singleton] at hw
    subst hw
    exact ⟨by norm_num, by norm_num⟩
  exact ⟨⟨by norm_num, by norm_num, by norm_num, hfree⟩,
    spec_c3_rate_averaging 10 [(10, 20, 10)] 0 2 5
      (by norm_num) (by norm_num) (by norm_num) hfree⟩

theorem maxIdle_iff (tmin tmax : ℚ) (T : List ℚ) (s e : ℚ) :
    maxIdle tmin tmax T s e = true ↔
      s < e ∧ (s = tmin ∨ s ∈ T) ∧ (e = tmax ∨ e ∈ T) ∧
        ∀ t ∈ T, ¬(s < t ∧ t < e) := by
  simp only [maxIdle, Bool.and_eq_true, Bool.or_eq_true, decide_eq_true_eq,
    List.all_eq_true, and_assoc]

theorem idleIntervals_nil (tmin tmax : ℚ) :
    idleIntervals tmin tmax [] =
      if tmin < tmax then [(tmin, tmax)] else [] := by
  by_cases h : tmin < tmax <;> simp [idleIntervals, gapsOf, h]

theorem idleIntervals_cons (tmin tmax t : ℚ) (T : List ℚ) :
    idleIntervals tmin tmax (t :: T) =
      (if tmin < t then [(tmin, t)] else []) ++ idleIntervals t tmax T := by
  by_cases h : tmin < t <;>
    simp [idleIntervals, gapsOf, List.filter_cons, h]

theorem idleIntervals_iff_maxIdle (T : List ℚ) :
    ∀ tmin tmax s e, T.Pairwise (· ≤ ·) → (∀ t ∈ T, tmin ≤ t ∧ t ≤ tmax) →
      ((s, e) ∈ idleIntervals tmin tmax T ↔ maxIdle tmin tmax T s e = true) := by
  induction T with
  | nil =>
    intro tmin tmax s e _ _
    rw [maxIdle_iff, idleIntervals_nil]
    by_cases h : tmin < tmax
    · rw [if_pos h]
      constructor
      · intro hm
        have heq := List.mem_singleton.mp hm
        have hs : s = tmin := congrArg Prod.fst heq
        have he : e = tmax := congrArg Prod.snd heq
        subst hs; subst he
        exact ⟨h, Or.inl rfl, Or.inl rfl, by intro t ht; cases ht⟩
      · rintro ⟨hse, hs, he, _⟩
        rcases hs with rfl | hs
        · rcases he with rfl | he
          · exact List.mem_singleton.mpr rfl
          · cases he
        · cases hs
    · rw [if_neg h]
      constructor
      · intro hm; cases hm
      · rintro ⟨hse, hs, he, _⟩
        rcases hs with rfl | hs
        · rcases he with rfl | he
          · exact absurd hse h
          · cases he
        · cases hs
  | cons t T ih =>
    intro tmin tmax s e hsort hin
    have hhead : ∀ u ∈ T, t ≤ u := fun u hu =>
      List.rel_of_pairwise_cons hsort hu
    have htail : T.Pairwise (· ≤ ·) := List.Pairwise.of_cons hsort
    have hwin : ∀ u ∈ T, t ≤ u ∧ u ≤ tmax := fun u hu =>
      ⟨hhead u hu, (hin u (List.mem_cons_of_mem t hu)).2⟩
    have htm : tmin ≤ t ∧ t ≤ tmax := hin t (List.mem_cons_self t T)
    rw [idleIntervals_cons, List.mem_append, ih t tmax s e htail hwin,
      maxIdle_iff, maxIdle_iff]
    constructor
    · rintro (hA | hB)
      · by_cases h : tmin < t
        · rw [if_pos h] at hA
          have heq := List.mem_singleton.mp hA
          have hs : s = tmin := congrArg Prod.fst heq
          have he : e = t := congrArg Prod.snd heq
          subst hs; subst he
          refine ⟨h, Or.inl rfl, Or.inr (List.mem_cons_self e T), ?_⟩
          intro u hu hc
          rcases List.mem_cons.mp hu with rfl | hu
          · exact absurd hc.2 (lt_irrefl u)
          · exact absurd hc.2 (not_lt.mpr (hhead u hu))
        · rw [if_neg h] at hA
          exact absurd hA (List.not_mem_nil _)
      · obtain ⟨hse, hs, he, hT⟩ := hB
        have hts : t ≤ s := by
          rcases hs with rfl | hs
          · exact le_refl s
          · exact hhead s hs
        refine ⟨hse, ?_, ?_, ?_⟩
        · rcases hs with rfl | hs
          · exact Or.inr (List.mem_cons_self s T)
          · exact Or.inr (List.mem_cons_of_mem t hs)
        · rcases he with rfl | he
          · exact Or.inl rfl
          · exact Or.inr (List.mem_cons_of_mem t he)
        · intro u hu
          rcases List.mem_cons.mp hu with rfl | hu
          · intro hc; exact absurd hc.1 (not_lt.mpr hts)
          · exact hT u hu
    · rintro ⟨hse, hs, he, hT⟩
      have hnt : ¬(s < t ∧ t < e) := hT t (List.mem_cons_self t T)
      rcases lt_or_le t e with hte | hte
      · have hts : t ≤ s := by
          by_contra hc
          exact hnt ⟨lt_of_not_le hc, hte⟩
        refine Or.inr ⟨hse, ?_, ?_, ?_⟩
        · rcases hs with rfl | hs
          · exact Or.inl (le_antisymm hts htm.1).symm
          · rcases List.mem_cons.mp hs with rfl | hs
            · exact Or.inl rfl
            · exact Or.inr hs
        · rcases he with rfl | he
          · exact Or.inl rfl
          · rcases List.mem_cons.mp he with rfl | he
            · exact absurd hte (lt_irrefl e)
            · exact Or.inr he
        · intro u hu; exact hT u (List.mem_cons_of_mem t hu)
      · have hst : s < t := lt_of_lt_of_le hse hte
        have hs' : s = tmin := by
          rcases hs with rfl | hs
          · rfl
          · rcases List.mem_cons.mp hs with rfl | hs
            · exact absurd hst (lt_irrefl s)
            · exact absurd hst (not_lt.mpr (hhead s hs))
        have he' : e = t := by
          rcases he with rfl | he
          · exact le_antisymm hte htm.2
          · rcases List.mem_cons.mp he with rfl | he
            · rfl
            · exact le_antisymm hte (hhead e he)
        subst hs'; subst he'
        refine Or.inl ?_
        rw [if_pos hse]
        exact List.mem_singleton.mpr rfl

theorem qubitTimes_sorted (n : String) (gs : List Gate) (tmin tmax : ℚ) :
    (qubitTimes n gs tmin tmax).Pairwise (· ≤ ·) := by
  unfold qubitTimes
  refine List.pairwise_map.mpr ?_
  exact (sortByTime_sorted gs).filter _

theorem qubitTimes_window (n : String) (gs : List Gate) (tmin tmax : ℚ) :
    ∀ t ∈ qubitTimes n gs tmin tmax, tmin ≤ t ∧ t ≤ tmax := by
  intro t ht
  unfold qubitTimes at ht
  obtain ⟨g, hg, rfl⟩ := List.mem_map.mp ht
  have := (List.mem_filter.mp hg).2
  simp only [Bool.and_eq_true, decide_eq_true_eq] at this
  exact ⟨this.1.2, this.2⟩

/-- C5: `add_waiting_gates` synthesizes exactly one damping gate per maximal
idle interval: the scan returns precisely the intervals satisfying the
declarative maximality predicate (positive length, endpoints at gate times
or window boundaries, no gate time strictly inside), one gate is made per
interval, centered at the interval midpoint with duration `e - s`; the
per-qubit gate-time list is sorted and window-restricted, and synthesis only
ever appends to the circuit's gate list (in particular, a qubit with no
gates and a supplied window `[a, b]`, `a < b`, gets exactly the one interval
`(a, b)`, since `maxIdle` then forces `s = a` and `e = b`). -/
theorem spec_c5_waiting_gate_synthesis (tmin tmax s e : ℚ) (T : List ℚ)
    (qb : Qubit) (gs : List Gate) (c : Circuit) (only : Option (List String))
    (tmn tmx : Option ℚ)
    (hT : T.Pairwise (· ≤ ·)) (hin : ∀ t ∈ T, tmin ≤ t ∧ t ≤ tmax) :
    ((s, e) ∈ idleIntervals tmin tmax T ↔ maxIdle tmin tmax T s e = true)
  ∧ (qb.make_idling_gate s e).time = (s + e) / 2
  ∧ (qb.make_idling_gate s e).duration = e - s
  ∧ waitingGatesFor qb gs tmin tmax =
      (idleIntervals tmin tmax (qubitTimes qb.name gs tmin tmax)).map
        (fun p => qb.make_idling_gate p.1 p.2)
  ∧ (qubitTimes qb.name gs tmin tmax).Pairwise (· ≤ ·)
  ∧ (∀ t ∈ qubitTimes qb.name gs tmin tmax, tmin ≤ t ∧ t ≤ tmax)
  ∧ idleIntervals tmin tmax [] = (if tmin < tmax then [(tmin, tmax)] else [])
  ∧ c.gates <+: (c.add_waiting_gates only tmn tmx).gates := by
  refine ⟨idleIntervals_iff_maxIdle T tmin tmax s e hT hin,
    by cases qb <;> rfl, by cases qb <;> rfl, rfl,
    qubitTimes_sorted qb.name gs tmin tmax,
    qubitTimes_window qb.name gs tmin tmax,
    idleIntervals_nil tmin tmax, ?_⟩
  unfold Circuit.add_waiting_gates
  split
  · exact List.prefix_refl _
  · exact List.prefix_append _ _

/-- C5 (witness): the synthesis theorem instantiated on a one-qubit circuit
with no gates and the window `[0, 1]`; the scan indeed produces the single
full-window gate at time `1/2` with duration `1`. -/
theorem spec_c5_witness :
    (List.Pairwise (· ≤ ·) ([] : List ℚ) ∧
      (∀ t ∈ ([] : List ℚ), (0 : ℚ) ≤ t ∧ t ≤ 1))
  ∧ (((0 : ℚ), (1 : ℚ)) ∈ idleIntervals 0 1 [] ↔ maxIdle 0 1 [] 0 1 = true)
  ∧ ((Qubit.basic "A" 10 10).make_idling_gate 0 1).time = (0 + 1) / 2
  ∧ ((Qubit.basic "A" 10 10).make_idling_gate 0 1).duration = 1 - 0
  ∧ waitingGatesFor (Qubit.basic "A" 10 10) [] 0 1 =
      [Gate.ampPhDamp "A" (1/2) 1 10 10] := by
  have h := spec_c5_waiting_gate_synthesis 0 1 0 1 [] (Qubit.basic "A" 10 10)
    [] ⟨[Qubit.basic "A" 10 10], []⟩ none (some 0) (some 1)
    List.Pairwise.nil (by intro t ht; cases ht)
  refine ⟨⟨List.Pairwise.nil, by intro t ht; cases ht⟩,
    h.1, h.2.1, h.2.2.1, ?_⟩
  show waitingGatesFor (Qubit.basic "A" 10 10) [] 0 1 = _
  norm_num [waitingGatesFor, qubitTimes, sortByTime, idleIntervals, gapsOf,
    Qubit.make_idling_gate, Qubit.name]

theorem filter_waiting_nil (n : String) (gs : List Gate) (tmin tmax : ℚ)
    (qbs : List Qubit) (p : Qubit → Bool)
    (hp : ∀ qb, p qb = true → qb.decoheres = true)
    (hq : ∀ qb ∈ qbs, qb.name = n → qb.decoheres = false) :
    ((qbs.filter p).flatMap fun qb => waitingGatesFor qb gs tmin tmax).filter
      (fun g => g.involves_qubit n) = [] := by
  refine List.filter_eq_nil_iff.mpr ?_
  intro g hg
  obtain ⟨qb, hqb, hgw⟩ := List.mem_flatMap.mp hg
  have hqbm := List.mem_filter.mp hqb
  obtain ⟨a, b, _, rfl⟩ :
      ∃ a b, (a, b) ∈ idleIntervals tmin tmax (qubitTimes qb.name gs tmin tmax)
        ∧ qb.make_idling_gate a b = g := by
    simpa [waitingGatesFor] using hgw
  have hinv : (qb.make_idling_gate a b).involves_qubit n =
      (qb.name == n) := by
    cases qb <;> rfl
  rw [hinv]
  simp only [beq_iff_eq, decide_eq_true_eq]
  intro hname
  have hfalse := hq qb hqbm.1 hname
  have htrue := hp qb hqbm.2
  rw [hfalse] at htrue
  cases htrue

/-- C10: a qubit added by name only carries infinite `t1` and `t2`, and
`add_waiting_gates` never synthesizes a decoherence gate involving such a
qubit: the gates touching it are unchanged. -/
theorem spec_c10_default_qubit_infinite (c : Circuit) (n : String)
    (only : Option (List String)) (tmn tmx : Option ℚ)
    (h : ∀ qb ∈ c.qubits, qb.name = n → qb = mkQubitDefault n) :
    (mkQubitDefault n).t1 = ⊤
  ∧ (mkQubitDefault n).t2 = ⊤
  ∧ (c.add_qubit (mkQubitDefault n)).qubits = c.qubits ++ [mkQubitDefault n]
  ∧ (c.add_waiting_gates only tmn tmx).gates.filter
      (fun g => g.involves_qubit n) =
    c.gates.filter (fun g => g.involves_qubit n) := by
  have hq : ∀ qb ∈ c.qubits, qb.name = n → qb.decoheres = false := by
    intro qb hqb hname
    rw [h qb hqb hname]
    rfl
  refine ⟨rfl, rfl, rfl, ?_⟩
  unfold Circuit.add_waiting_gates
  split
  · rfl
  · simp only [List.filter_append]
    rw [filter_waiting_nil n c.gates _ _ c.qubits _
      (fun qb hb => by
        simp only [Bool.and_eq_true] at hb
        exact hb.1) hq, List.append_nil]

/-- C10 (witness): a two-qubit circuit where `A` was added by name only and
`C` decoheres; synthesis over `[0, 1]` leaves the (empty) set of gates on
`A` unchanged. -/
theorem spec_c10_witness :
    (∀ qb ∈ (Circuit.mk [mkQubitDefault "A", Qubit.basic "C" 10 10] []).qubits,
      qb.name = "A" → qb = mkQubitDefault "A")
  ∧ (mkQubitDefault "A").t1 = ⊤
  ∧ (mkQubitDefault "A").t2 = ⊤
  ∧ ((Circuit.mk [mkQubitDefault "A", Qubit.basic "C" 10 10] []).add_qubit
      (mkQubitDefault "A")).qubits =
      [mkQubitDefault "A", Qubit.basic "C" 10 10] ++ [mkQubitDefault "A"]
  ∧ ((Circuit.mk [mkQubitDefault "A", Qubit.basic "C" 10 10] []).add_waiting_gates
        none (some 0) (some 1)).gates.filter
      (fun g => g.involves_qubit "A") =
    (Circuit.mk [mkQubitDefault "A", Qubit.basic "C" 10 10] []).gates.filter
      (fun g => g.involves_qubit "A") := by
  have hq : ∀ qb ∈ (Circuit.mk [mkQubitDefault "A", Qubit.basic "C" 10 10] []).qubits,
      qb.name = "A" → qb = mkQubitDefault "A" := by
    intro qb hqb hname
    rcases List.mem_cons.mp hqb with rfl | hqb
    · rfl
    · rcases List.mem_cons.mp hqb with rfl | hqb
      · exact absurd hname (by simp [Qubit.name])
      · cases hqb
  have h := spec_c10_default_qubit_infinite
    (Circuit.mk [mkQubitDefault "A", Qubit.basic "C" 10 10] []) "A"
    none (some 0) (some 1) hq
  exact ⟨hq, h.1, h.2.1, h.2.2.1, h.2.2.2⟩

/-- The dephasing time constant of the scenario's qubits (`1e10`). -/
def c2T2 : WithTop ℚ := ((10000000000 : ℚ) : WithTop ℚ)

/-- The 27 gates of the ordered scenario circuit, written out: the 10 user
gates interleaved with the 17 synthesized waiting gates, sorted stably by
time. -/
def c2GatesList : List Gate :=
  [ .hadamard "A1" 0, .hadamard "A2" 0,
    .ampPhDamp "A1" 50 100 ⊤ c2T2, .ampPhDamp "D2" 50 100 ⊤ c2T2,
    .ampPhDamp "A2" 50 100 ⊤ c2T2, .ampPhDamp "D3" 50 100 ⊤ c2T2,
    .cphase "A1" "D2" 100, .cphase "A2" "D3" 100,
    .ampPhDamp "D1" 100 200 ⊤ c2T2,
    .ampPhDamp "A1" 150 100 ⊤ c2T2, .ampPhDamp "D2" 150 100 ⊤ c2T2,
    .ampPhDamp "A2" 150 100 ⊤ c2T2,
    .cphase "A1" "D1" 200, .cphase "A2" "D2" 200,
    .ampPhDamp "A1" 250 100 ⊤ c2T2, .ampPhDamp "A2" 250 100 ⊤ c2T2,
    .hadamard "A1" 300, .hadamard "A2" 300,
    .ampPhDamp "A1" 325 50 ⊤ c2T2, .ampPhDamp "A2" 325 50 ⊤ c2T2,
    .measurement "A1" 350, .measurement "A2" 350,
    .ampPhDamp "D3" 800 1400 ⊤ c2T2,
    .ampPhDamp "D1" 850 1300 ⊤ c2T2, .ampPhDamp "D2" 850 1300 ⊤ c2T2,
    .ampPhDamp "A1" 925 1150 ⊤ c2T2, .ampPhDamp "A2" 925 1150 ⊤ c2T2 ]

set_option maxHeartbeats 4000000 in
theorem c2Gates_eq : c2Circuit.gates = c2GatesList := by
  norm_num [c2Circuit, c2Base, Circuit.add_waiting_gates, Circuit.order,
    sortByTime, insertByTime, waitingGatesFor, qubitTimes, idleIntervals,
    gapsOf, Qubit.make_idling_gate, Qubit.decoheres, Qubit.name, Gate.time,
    Gate.involves_qubit, List.filter_cons, c2GatesList, c2T2]

set_option maxHeartbeats 4000000 in
theorem c2_replay_step (rng : ℕ → ℚ) (h0 : ∀ n, 0 ≤ rng n)
    (h1 : ∀ n, rng n < 1) (k : ℕ) :
    runGatesP 1 rng c2GatesList (c2After k) = some (c2After (k + 1)) := by
  have hnb : ¬ (rng (2 * k + 1) < 0) := not_lt.mpr (h0 (2 * k + 1))
  rcases Nat.even_or_odd k with hk | hk
  · have hk2 : k % 2 = 0 := Nat.even_iff.mp hk
    have hk2' : (k + 1) % 2 = 1 := by omega
    simp only [c2GatesList, c2After, hk2, hk2', runGatesP, applyGateP,
      SimState.getQ, SimState.setQ, hadamardP, zP, dampP, sampleStep,
      bornPick, Option.bind, if_true, if_false]
    norm_num
    simp [h1 (2 * k), hnb, hk2, List.replicate_succ', List.range_succ]
    exact ⟨by norm_num, not_lt.mp hnb, by omega⟩
  · have hk2 : k % 2 = 1 := Nat.odd_iff.mp hk
    have hk2' : (k + 1) % 2 = 0 := by omega
    simp only [c2GatesList, c2After, hk2, hk2', runGatesP, applyGateP,
      SimState.getQ, SimState.setQ, hadamardP, zP, dampP, sampleStep,
      bornPick, Option.bind, if_true, if_false]
    norm_num
    simp [h1 (2 * k), h1 (2 * k + 1), hk2, List.replicate_succ',
      List.range_succ]
    exact ⟨by norm_num, by omega⟩

theorem c2Init_eq : c2Init = c2After 0 := rfl

theorem c2_run_general (rng : ℕ → ℚ) (h0 : ∀ n, 0 ≤ rng n)
    (h1 : ∀ n, rng n < 1) :
    ∀ k j, runReplaysP 1 rng c2GatesList k (c2After j) =
      some (c2After (j + k)) := by
  intro k
  induction k with
  | zero => intro j; simp [runReplaysP]
  | succ n ih =>
    intro j
    show (runGatesP 1 rng c2GatesList (c2After j)).bind _ = _
    rw [c2_replay_step rng h0 h1 j]
    show runReplaysP 1 rng c2GatesList n (c2After (j + 1)) = _
    rw [ih (j + 1)]
    have h : j + 1 + n = j + (n + 1) := by omega
    rw [h]

/-- C2 (amended): replaying the ordered 27-gate three-qubit scenario 100
times against one backend state is deterministic for EVERY random stream in
`[0, 1)` — the circuit has exactly one reachable classical branch per
replay — and the final trace is exactly 1 in the infinite-lifetime
idealisation; but the recorded outcomes are not constant across trials: the
first measurement logs 1 on every replay while the second alternates
0, 1, 0, 1, … because each replay hands its projected ancilla states to the
next one. -/
theorem spec_c2_three_qubit_replay (rng : ℕ → ℚ)
    (h0 : ∀ n, 0 ≤ rng n) (h1 : ∀ n, rng n < 1) :
    c2Circuit.gates = c2GatesList
  ∧ c2GatesList.length = 27
  ∧ runReplaysP 1 rng c2GatesList 100 c2Init = some (c2After 100)
  ∧ (c2After 100).log1 = List.replicate 100 1
  ∧ (c2After 100).log2 = (List.range 100).map (· % 2)
  ∧ (c2After 100).tr = 1 := by
  refine ⟨c2Gates_eq, rfl, ?_, rfl, rfl, rfl⟩
  have h := c2_run_general rng h0 h1 100 0
  rw [← c2Init_eq] at h
  exact h

/-- C2 (witness): the replay theorem instantiated on the constant stream
`1/2`. -/
theorem spec_c2_witness :
    ((∀ n : ℕ, 0 ≤ (fun _ : ℕ => (1 : ℚ)/2) n)
      ∧ (∀ n : ℕ, (fun _ : ℕ => (1 : ℚ)/2) n < 1))
  ∧ (c2Circuit.gates = c2GatesList
      ∧ c2GatesList.length = 27
      ∧ runReplaysP 1 (fun _ : ℕ => (1 : ℚ)/2) c2GatesList 100 c2Init =
          some (c2After 100)
      ∧ (c2After 100).log1 = List.replicate 100 1
      ∧ (c2After 100).log2 = (List.range 100).map (· % 2)
      ∧ (c2After 100).tr = 1) :=
  ⟨⟨fun _ => by norm_num, fun _ => by norm_num⟩,
    spec_c2_three_qubit_replay (fun _ : ℕ => (1 : ℚ)/2)
      (fun _ => by norm_num) (fun _ => by norm_num)⟩

/-- C2 (counterexample): in the 100-replay run (constant stream `1/2`) the
second measurement does NOT record the same outcome in all 100 trials — its
log is not a constant list: trial 1 records 0 and trial 2 records 1. -/
theorem spec_c2_counterexample :
    ¬ ∃ b : ℕ, (runReplaysP 1 (fun _ : ℕ => (1 : ℚ)/2) c2GatesList 100
        c2Init).map SimState.log2 = some (List.replicate 100 b) := by
  rintro ⟨b, hb⟩
  have hrun := c2_run_general (fun _ : ℕ => (1 : ℚ)/2)
    (fun _ => by norm_num) (fun _ => by norm_num) 100 0
  rw [← c2Init_eq] at hrun
  rw [show (0 : ℕ) + 100 = 100 by omega] at hrun
  rw [hrun] at hb
  simp only [Option.map_some', Option.some.injEq] at hb
  have hmap : (c2After 100).log2 = (List.range 100).map (· % 2) := rfl
  rw [hmap] at hb
  have h2 := congrArg (List.take 2) hb
  rw [List.take_replicate] at h2
  have hL : ((List.range 100).map (· % 2)).take 2 = [0, 1] := rfl
  rw [hL] at h2
  have hmin : min 2 100 = 2 := by omega
  rw [hmin] at h2
  have hb0 : (0 : ℕ) = b := by
    have := congrArg (fun l => l.headD 7) h2
    simpa using this
  have hb1 : (1 : ℕ) = b := by
    have := congrArg (fun l => (l.drop 1).headD 7) h2
    simpa using this
  omega
